import Mathlib

/-!
Verification of the fuzai audio-detection core.

Shallow embedding of:
  * `src/sound_detector.py` — the frequency/state-machine detector (`SoundDetector`):
    sustained-frequency bookkeeping (`_detect_target_frequencies`), the ordered-sequence
    state machine (`_update_state_machine`, `_reset_state_machine`) and the throttled
    coordinator (`process_audio_chunk`).
  * `src/dtw_analyzer.py` — the windowed DTW engine (`_dtw_distance_optimized`,
    `calculate_similarity_features`).
  * `src/sound_detect/frequency_analyzer.py` — peak selection
    (`find_dominant_frequencies`, `is_frequency_match`).

Python floats are modelled as rationals; `time.time()` values are explicit `now`
parameters (the calls made while handling one block are modelled as the block's single
timestamp); numpy / scipy library calls (FFT magnitudes, the per-cell euclidean metric)
are abstracted as function parameters, which is how the repository code uses them.
-/

set_option maxRecDepth 10000

set_option allowUnsafeReducibility true

attribute [local semireducible] Rat.add Rat.sub Rat.mul Rat.inv

namespace Fuzai

/-- Truncation toward zero: the semantics of Python `int()` applied to a real value,
here modelled on rationals. -/
def pyInt (q : ℚ) : ℤ := if 0 ≤ q then ⌊q⌋ else -⌊-q⌋

/-- Python slice `l[-k:]`.  For `k = 0` this is `l[0:]`, i.e. the whole list — the
slice does not become empty, since `-0 == 0` in Python. -/
def pySliceLast {α : Type} (l : List α) (k : ℕ) : List α :=
  if k = 0 then l else l.drop (l.length - k)

/-! ### Frequency analyzer (`src/sound_detect/frequency_analyzer.py`) -/

/-- `FrequencyAnalyzer.is_frequency_match`: match within an absolute tolerance. -/
def is_frequency_match (tolerance detected_freq target_freq : ℚ) : Bool :=
  decide (|detected_freq - target_freq| ≤ tolerance)

/-- Frequency bins of `np.fft.fftfreq(n, 1/sample_rate)`:
bin `k` maps to `k * sample_rate / n` for the non-negative-frequency half and to
`(k - n) * sample_rate / n` for the rest. -/
def fftfreq (sample_rate : ℚ) (n : ℕ) : List ℚ :=
  (List.range n).map (fun k =>
    if k < (n + 1) / 2 then (k : ℚ) * sample_rate / n
    else ((k : ℚ) - (n : ℚ)) * sample_rate / n)

/-- `np.argsort(magnitude)`: the indices of `magnitude`, sorted so that the
corresponding magnitudes are ascending. -/
def argsort (mag : List ℚ) : List ℕ :=
  List.insertionSort (fun i j => mag.getD i 0 ≤ mag.getD j 0) (List.range mag.length)

/-- The peak-selection tail of `find_dominant_frequencies`: take the indices of the
`num_peaks` largest magnitudes via `argsort(magnitude)[-num_peaks:]`, keep those with
strictly positive magnitude, pair each with its frequency bin, and sort by amplitude
descending (`sort(key=..., reverse=True)`). -/
def select_peaks (freqs magnitude : List ℚ) (num_peaks : ℕ) : List (ℚ × ℚ) :=
  List.insertionSort (fun p q => q.2 ≤ p.2)
    (((pySliceLast (argsort magnitude) num_peaks).filter
      (fun i => decide (0 < magnitude.getD i 0))).map
      (fun i => (freqs.getD i 0, magnitude.getD i 0)))

/-- `FrequencyAnalyzer.find_dominant_frequencies`.  The numpy FFT magnitude spectrum of
the Hann-windowed block is abstracted as the parameter `fftMag` (an arbitrary list of
magnitudes produced from the block); everything after that call — keeping the lower
half of the spectrum, the `fftfreq` bin mapping truncated to the magnitude length, and
the `select_peaks` tail — follows the source line by line. -/
def find_dominant_frequencies (fftMag : List ℚ → List ℚ) (sample_rate : ℚ)
    (audio : List ℚ) (num_peaks : ℕ) : List (ℚ × ℚ) :=
  if audio.length = 0 then []
  else
    select_peaks
      ((fftfreq sample_rate audio.length).take
        (((fftMag audio).take ((fftMag audio).length / 2)).length))
      ((fftMag audio).take ((fftMag audio).length / 2))
      num_peaks

/-! ### Frequency detector state machine (`src/sound_detector.py`) -/

/-- The `DetectionState` enum. -/
inductive DetectionState
  | WAITING
  | COMPLETED
deriving DecidableEq

/-- Constructor arguments of `SoundDetector.__init__`, plus the analyzer's
`tolerance_range` (the `FrequencyAnalyzer(sample_rate)` member keeps its default 50). -/
structure SDConfig where
  sample_rate : ℚ
  chunk_size : ℚ
  target_frequencies : List ℚ
  detection_threshold : ℚ
  detection_duration : ℚ
  throttle_duration : ℚ
  state_timeout : ℚ
  tolerance_range : ℚ

/-- The default configuration of `SoundDetector.__init__`. -/
def defaultConfig : SDConfig :=
  { sample_rate := 44100
    chunk_size := 4096
    target_frequencies := [440, 880, 1320]
    detection_threshold := 1/10
    detection_duration := 1/2
    throttle_duration := 10
    state_timeout := 5
    tolerance_range := 50 }

/-- Mutable attributes of a `SoundDetector` instance.  `frequency_detection_times` is
the `defaultdict(list)` keyed by target frequency; `detection_callback` records whether
a callback has been registered. -/
structure SDState where
  detection_callback : Bool
  frequency_detection_times : ℚ → List ℚ
  last_detection_time : ℚ
  current_state : DetectionState
  state_transition_time : ℚ
  current_frequency_index : ℕ
  detected_frequencies : List ℚ

/-- The state set up by `SoundDetector.__init__` at construction time `t0`. -/
def initial_state (t0 : ℚ) : SDState :=
  { detection_callback := false
    frequency_detection_times := fun _ => []
    last_detection_time := 0
    current_state := .WAITING
    state_transition_time := t0
    current_frequency_index := 0
    detected_frequencies := [] }

/-- `max(1, int(self.detection_duration * self.sample_rate / self.chunk_size))`,
the `min_detections` count of `_detect_target_frequencies`. -/
def min_detections (cfg : SDConfig) : ℕ :=
  max 1 (pyInt (cfg.detection_duration * cfg.sample_rate / cfg.chunk_size)).toNat

/-- Modelled from the spec's words, for comparison with `min_detections`:
`ceil(detection_duration * sample_rate / chunk_size)`. -/
def min_detections_ceil (cfg : SDConfig) : ℕ :=
  (⌈cfg.detection_duration * cfg.sample_rate / cfg.chunk_size⌉).toNat

/-- The harmonic match test of `_detect_target_frequencies`:
`any(is_frequency_match(detected, target * (i+1)) for i in range(3))`. -/
def harmonic_match (cfg : SDConfig) (detected target : ℚ) : Bool :=
  (List.range 3).any (fun i =>
    is_frequency_match cfg.tolerance_range detected (target * ((i : ℚ) + 1)))

/-- The pruning comprehension: keep timestamps `t` with `t >= cutoff_time`. -/
def pruneTimes (cutoff : ℚ) (l : List ℚ) : List ℚ :=
  l.filter (fun t => decide (cutoff ≤ t))

/-- Pointwise update of the detection-times dictionary. -/
def updFn (f : ℚ → List ℚ) (k : ℚ) (v : List ℚ) : ℚ → List ℚ :=
  fun x => if x = k then v else f x

/-- The inner loop of `_detect_target_frequencies` over the dominant peaks for one
target frequency: skip peaks that do not match the harmonic test or fall below the
amplitude threshold; on a match append `now`, prune with cutoff `now -
detection_duration`, store the pruned record, and stop (returning a hit) as soon as the
record length reaches `min_detections`. -/
def scan_peaks (cfg : SDConfig) (now thr target : ℚ) :
    List (ℚ × ℚ) → (ℚ → List ℚ) → ((ℚ → List ℚ) × Bool)
  | [], times => (times, false)
  | (f, a) :: rest, times =>
    if harmonic_match cfg f target && decide (thr ≤ a) then
      if min_detections cfg ≤
          (pruneTimes (now - cfg.detection_duration) (times target ++ [now])).length then
        (updFn times target
          (pruneTimes (now - cfg.detection_duration) (times target ++ [now])), true)
      else
        scan_peaks cfg now thr target rest
          (updFn times target
            (pruneTimes (now - cfg.detection_duration) (times target ++ [now])))
    else scan_peaks cfg now thr target rest times

/-- `max(freq[1] for freq in dominant_freqs)` on a non-empty peak list. -/
def maxSnd : List (ℚ × ℚ) → ℚ
  | [] => 0
  | p :: rest => rest.foldl (fun m q => max m q.2) p.2

/-- The outer loop of `_detect_target_frequencies` over `self.target_frequencies`,
collecting the sustained-detected targets in order. -/
def detect_loop (cfg : SDConfig) (now thr : ℚ) (dominant : List (ℚ × ℚ)) :
    List ℚ → (ℚ → List ℚ) → ((ℚ → List ℚ) × List ℚ)
  | [], times => (times, [])
  | t :: ts, times =>
    ((detect_loop cfg now thr dominant ts (scan_peaks cfg now thr t dominant times).1).1,
      (if (scan_peaks cfg now thr t dominant times).2 then [t] else []) ++
        (detect_loop cfg now thr dominant ts
          (scan_peaks cfg now thr t dominant times).1).2)

/-- `SoundDetector._detect_target_frequencies`, with the block's dominant peaks (the
result of `find_dominant_frequencies(audio_data)`) passed in explicitly.  An empty peak
list returns immediately; otherwise the amplitude threshold is
`max_amplitude * detection_threshold`. -/
def detect_target_frequencies (cfg : SDConfig) (now : ℚ) (dominant : List (ℚ × ℚ))
    (times : ℚ → List ℚ) : (ℚ → List ℚ) × List ℚ :=
  if dominant.isEmpty then (times, [])
  else detect_loop cfg now (maxSnd dominant * cfg.detection_threshold) dominant
    cfg.target_frequencies times

/-- `SoundDetector._reset_state_machine`. -/
def reset_state_machine (now : ℚ) (st : SDState) : SDState :=
  { st with
    current_state := .WAITING
    current_frequency_index := 0
    detected_frequencies := []
    state_transition_time := now }

/-- The body of `_update_state_machine` after the `_detect_target_frequencies` call:
timeout reset (only in `WAITING` with a truthy index), then the `WAITING` branch that
advances on the currently-expected frequency and transitions to `COMPLETED` at the last
index.  In any other state the function changes nothing. -/
def update_core (cfg : SDConfig) (now : ℚ) (detected : List ℚ) (st : SDState) :
    SDState :=
  if st.current_state = .WAITING ∧ st.current_frequency_index ≠ 0 ∧
      cfg.state_timeout < now - st.state_transition_time then
    reset_state_machine now st
  else if st.current_state = .WAITING then
    if cfg.target_frequencies.length ≤ st.current_frequency_index then
      { st with
        current_state := .COMPLETED
        state_transition_time := now }
    else if cfg.target_frequencies.getD st.current_frequency_index 0 ∈ detected then
      if cfg.target_frequencies.length ≤ st.current_frequency_index + 1 then
        { st with
          detected_frequencies := st.detected_frequencies ++
            [cfg.target_frequencies.getD st.current_frequency_index 0]
          current_frequency_index := st.current_frequency_index + 1
          state_transition_time := now
          current_state := .COMPLETED }
      else
        { st with
          detected_frequencies := st.detected_frequencies ++
            [cfg.target_frequencies.getD st.current_frequency_index 0]
          current_frequency_index := st.current_frequency_index + 1
          state_transition_time := now }
    else st
  else st

/-- `SoundDetector._update_state_machine`: return unchanged on an empty target list,
otherwise run detection (mutating the time records) and then the state-machine core. -/
def update_state_machine (cfg : SDConfig) (now : ℚ) (dominant : List (ℚ × ℚ))
    (st : SDState) : SDState :=
  if cfg.target_frequencies.isEmpty then st
  else
    update_core cfg now
      (detect_target_frequencies cfg now dominant st.frequency_detection_times).2
      { st with frequency_detection_times :=
          (detect_target_frequencies cfg now dominant st.frequency_detection_times).1 }

/-- `SoundDetector.process_audio_chunk`: return immediately when no callback is
registered; otherwise update the state machine and, on `COMPLETED`, fire the callback
and reset only when the throttle window has elapsed.  The returned Bool records whether
the callback was invoked. -/
def process_audio_chunk (cfg : SDConfig) (now : ℚ) (dominant : List (ℚ × ℚ))
    (st : SDState) : SDState × Bool :=
  if st.detection_callback = false then (st, false)
  else if (update_state_machine cfg now dominant st).current_state = .COMPLETED then
    if cfg.throttle_duration ≤
        now - (update_state_machine cfg now dominant st).last_detection_time then
      (reset_state_machine now
        { update_state_machine cfg now dominant st with last_detection_time := now },
        true)
    else (update_state_machine cfg now dominant st, false)
  else (update_state_machine cfg now dominant st, false)

/-- A run of `process_audio_chunk` over a stream of blocks, each given as its
timestamp together with its dominant-peak list; collects the timestamps at which the
callback fired. -/
def run_process (cfg : SDConfig) :
    List (ℚ × List (ℚ × ℚ)) → SDState → SDState × List ℚ
  | [], st => (st, [])
  | b :: rest, st =>
    ((run_process cfg rest (process_audio_chunk cfg b.1 b.2 st).1).1,
      (if (process_audio_chunk cfg b.1 b.2 st).2 then [b.1] else []) ++
        (run_process cfg rest (process_audio_chunk cfg b.1 b.2 st).1).2)

/-- A run of `_detect_target_frequencies` over a stream of blocks, collecting each
block's list of sustained-detected targets. -/
def run_detect (cfg : SDConfig) :
    List (ℚ × List (ℚ × ℚ)) → (ℚ → List ℚ) →
      ((ℚ → List ℚ) × List (List ℚ))
  | [], times => (times, [])
  | b :: rest, times =>
    ((run_detect cfg rest (detect_target_frequencies cfg b.1 b.2 times).1).1,
      (detect_target_frequencies cfg b.1 b.2 times).2 ::
        (run_detect cfg rest (detect_target_frequencies cfg b.1 b.2 times).1).2)

/-- A run of the state-machine core over per-block sustained-detection results, all at
time 0 (timestamps are irrelevant to the sequencing logic as long as no timeout
fires). -/
def run_update_core (cfg : SDConfig) : List (List ℚ) → SDState → SDState
  | [], st => st
  | d :: rest, st => run_update_core cfg rest (update_core cfg 0 d st)

/-- Greedy sequence-matching index: how far the expected-frequency pointer moves when
the per-block detections `ds` are consumed one block at a time. -/
def greedy_idx (targets : List ℚ) : ℕ → List ℚ → ℕ
  | idx, [] => idx
  | idx, d :: rest =>
    if idx < targets.length ∧ targets.getD idx 0 = d then
      greedy_idx targets (idx + 1) rest
    else greedy_idx targets idx rest

/-- Number of dominant peaks of one block that pass the harmonic/threshold test for
target `t` (the peaks that make `_detect_target_frequencies` append a timestamp for
`t`). -/
def matching_peaks (cfg : SDConfig) (thr t : ℚ) (dominant : List (ℚ × ℚ)) : ℕ :=
  (dominant.filter (fun p => harmonic_match cfg p.1 t && decide (thr ≤ p.2))).length

/-- A detector instance sitting in `COMPLETED` with the full default sequence
consumed, callback registered, last fire at time 0. -/
def completedState : SDState :=
  { detection_callback := true
    frequency_detection_times := fun _ => []
    last_detection_time := 0
    current_state := .COMPLETED
    state_transition_time := 0
    current_frequency_index := 3
    detected_frequencies := [440, 880, 1320] }

/-- A two-tone ordered-sequence configuration whose targets are harmonically
independent (no target matches another target's first three harmonics within the
tolerance) and whose `detection_duration` makes a single matching block sustained. -/
def seqConfig : SDConfig :=
  { sample_rate := 44100
    chunk_size := 4096
    target_frequencies := [1000, 1700]
    detection_threshold := 1/10
    detection_duration := 1/20
    throttle_duration := 10
    state_timeout := 5
    tolerance_range := 50 }

/-! ### DTW engine (`src/dtw_analyzer.py`) -/

/-- An `Option ℚ` DTW matrix entry that is either unreached or non-negative. -/
def NonnegO (v : Option ℚ) : Prop := ∀ d, v = some d → 0 ≤ d

/-- Minimum of two matrix entries, `none` playing the role of the `np.inf`
initialisation of unreached cells. -/
def minO : Option ℚ → Option ℚ → Option ℚ
  | none, b => b
  | some a, none => some a
  | some a, some b => some (min a b)

/-- Local cost added to an accumulated entry; adding to an unreached (infinite) entry
stays unreached. -/
def addO (c : ℚ) : Option ℚ → Option ℚ
  | none => none
  | some v => some (c + v)

/-- Row `i ≥ 1` of the DTW matrix as a function of the previous row: cell `(i, j)` is
computed only for `max(1, i - w) ≤ j < min(m + 1, i + w + 1)` (the Sakoe–Chiba band of
`_dtw_distance_optimized`); every other cell keeps its `inf` initialisation.  `cost i j`
abstracts `euclidean(seq1[i-1], seq2[j-1])`. -/
def dtw_row (cost : ℕ → ℕ → ℚ) (w m : ℕ) (prev : ℕ → Option ℚ) (i : ℕ) :
    ℕ → Option ℚ
  | 0 => none
  | j + 1 =>
    if max 1 (i - w) ≤ j + 1 ∧ j + 1 < min (m + 1) (i + w + 1) then
      addO (cost i (j + 1))
        (minO (prev (j + 1)) (minO (dtw_row cost w m prev i j) (prev j)))
    else none

/-- The DTW matrix rows: row 0 is the `dtw_matrix[0, 0] = 0` initialisation with every
other border cell infinite. -/
def dtw_rows (cost : ℕ → ℕ → ℚ) (w m : ℕ) : ℕ → ℕ → Option ℚ
  | 0 => fun j => if j = 0 then some 0 else none
  | i + 1 => dtw_row cost w m (dtw_rows cost w m i) (i + 1)

/-- `max(1, int(max(n, m) * self.window_constraint_ratio))`: the default window
constraint of `_dtw_distance_optimized`. -/
def window_constraint (ratio : ℚ) (n m : ℕ) : ℕ :=
  max 1 (pyInt ((max n m : ℕ) * ratio)).toNat

/-- Modelled from the spec's words, for comparison with `window_constraint`:
`max(1, round(max(lenA, lenB) * window_constraint_ratio))`. -/
def window_spec (ratio : ℚ) (n m : ℕ) : ℕ :=
  max 1 (round (((max n m : ℕ) : ℚ) * ratio)).toNat

/-- `DTWAnalyzer._dtw_distance_optimized` for sequences of lengths `n` and `m`:
the value of cell `(n, m)`, `none` when the band never reaches it. -/
def dtw_distance_optimized (cost : ℕ → ℕ → ℚ) (ratio : ℚ) (n m : ℕ) : Option ℚ :=
  dtw_rows cost (window_constraint ratio n m) m n m

/-- `DTWAnalyzer.calculate_similarity_features` on sequences of lengths `n`, `m` with
per-cell costs `cost`.  `exc` models whether the `try` block raised (the source catches
every exception and returns 1.0).  An infinite accumulated distance reproduces the
float pipeline `1 - exp(-inf) = 1.0`. -/
noncomputable def calculate_similarity_features (cost : ℕ → ℕ → ℚ) (ratio : ℚ)
    (n m : ℕ) (exc : Bool) : ℝ :=
  if n = 0 ∨ m = 0 then 1
  else if exc then 1
  else
    match dtw_distance_optimized cost ratio n m with
    | none => 1
    | some d => 1 - Real.exp (-(((d / ((n : ℚ) + (m : ℚ))) : ℚ) : ℝ))

/-! ### Time-of-day suppression (pattern-mode `SoundDetector`) -/

/-- Modelled from the spec: `_is_in_pause_window` of the DTW-pattern `SoundDetector`,
whose implementation is absent from src/ (only `src/test_sound_detector.py` exercises
it).  Suppress when the current hour lies in `[pause_start_hour, pause_end_hour)`,
wrapping across midnight when `pause_start_hour > pause_end_hour`; always false when
disabled. -/
def is_in_pause_window (enable : Bool) (pause_start_hour pause_end_hour hour : ℕ) :
    Bool :=
  if enable = false then false
  else if pause_end_hour < pause_start_hour then
    decide (pause_start_hour ≤ hour) || decide (hour < pause_end_hour)
  else
    decide (pause_start_hour ≤ hour) && decide (hour < pause_end_hour)

/-- Modelled from the spec: the time gate of the pattern detector's
`process_audio_chunk` (absent from src/) — during the pause window the block is skipped
entirely (state untouched, no detection); otherwise processing proceeds, abstracted as
`detect`. -/
def pattern_process_block {σ : Type} (enable : Bool)
    (pause_start_hour pause_end_hour hour : ℕ) (detect : σ → σ × Bool) (st : σ) :
    σ × Bool :=
  if is_in_pause_window enable pause_start_hour pause_end_hour hour then (st, false)
  else detect st

/-! ## Coordinator helper lemmas -/

theorem update_core_last (cfg : SDConfig) (now : ℚ) (detected : List ℚ)
    (st : SDState) :
    (update_core cfg now detected st).last_detection_time = st.last_detection_time := by
  unfold update_core reset_state_machine
  repeat' split
  all_goals rfl

theorem update_state_machine_last (cfg : SDConfig) (now : ℚ)
    (dominant : List (ℚ × ℚ)) (st : SDState) :
    (update_state_machine cfg now dominant st).last_detection_time =
      st.last_detection_time := by
  unfold update_state_machine
  split
  · rfl
  · rw [update_core_last]

theorem process_audio_chunk_cases (cfg : SDConfig) (now : ℚ)
    (dominant : List (ℚ × ℚ)) (st : SDState) :
    ((process_audio_chunk cfg now dominant st).2 = false ∧
      (process_audio_chunk cfg now dominant st).1.last_detection_time =
        st.last_detection_time) ∨
    ((process_audio_chunk cfg now dominant st).2 = true ∧
      (process_audio_chunk cfg now dominant st).1.last_detection_time = now ∧
      st.last_detection_time + cfg.throttle_duration ≤ now) := by
  unfold process_audio_chunk
  split
  · exact Or.inl ⟨rfl, rfl⟩
  · split
    · split
      · refine Or.inr ⟨rfl, rfl, ?_⟩
        have hl := update_state_machine_last cfg now dominant st
        rename_i hthr
        rw [hl] at hthr
        linarith
      · exact Or.inl ⟨rfl, update_state_machine_last cfg now dominant st⟩
    · exact Or.inl ⟨rfl, update_state_machine_last cfg now dominant st⟩

theorem run_process_fires_lb (cfg : SDConfig) (hθ : 0 ≤ cfg.throttle_duration) :
    ∀ (blocks : List (ℚ × List (ℚ × ℚ))) (st : SDState) (f : ℚ),
      f ∈ (run_process cfg blocks st).2 →
      st.last_detection_time + cfg.throttle_duration ≤ f := by
  intro blocks
  induction blocks with
  | nil => intro st f hf; simp [run_process] at hf
  | cons b rest ih =>
    intro st f hf
    simp only [run_process, List.mem_append] at hf
    rcases process_audio_chunk_cases cfg b.1 b.2 st with ⟨h2, hl⟩ | ⟨h2, hl, hge⟩
    · rw [h2] at hf
      simp at hf
      have h3 := ih _ f hf
      rwa [hl] at h3
    · rw [h2] at hf
      simp at hf
      rcases hf with rfl | hf
      · exact hge
      · have h3 := ih _ f hf
        rw [hl] at h3
        linarith

theorem run_process_pairwise (cfg : SDConfig) (hθ : 0 ≤ cfg.throttle_duration) :
    ∀ (blocks : List (ℚ × List (ℚ × ℚ))) (st : SDState),
      List.Pairwise (fun a b : ℚ => a + cfg.throttle_duration ≤ b)
        (run_process cfg blocks st).2 := by
  intro blocks
  induction blocks with
  | nil => intro st; simp [run_process]
  | cons b rest ih =>
    intro st
    simp only [run_process]
    rcases process_audio_chunk_cases cfg b.1 b.2 st with ⟨h2, _⟩ | ⟨h2, hl, _⟩
    · rw [h2]
      simpa using ih _
    · rw [h2]
      simp only [if_pos, List.singleton_append, List.pairwise_cons]
      refine ⟨?_, ih _⟩
      intro f hf
      have h3 := run_process_fires_lb cfg hθ rest _ f hf
      rw [hl] at h3
      linarith

/-! ## Claims about the coordinator -/

/-- C1: on any run of the coordinator, the timestamps of any two callback
invocations differ by at least `throttle_duration`; moreover in a single step, when
the throttle window has not yet elapsed the callback is not invoked, and whenever it
is invoked `last_detection_time` is set to the current time. -/
theorem C1_throttle_invariant (cfg : SDConfig) (hθ : 0 ≤ cfg.throttle_duration)
    (blocks : List (ℚ × List (ℚ × ℚ))) (st : SDState) (now : ℚ)
    (dominant : List (ℚ × ℚ)) :
    List.Pairwise (fun a b : ℚ => a + cfg.throttle_duration ≤ b)
      (run_process cfg blocks st).2 ∧
    (now - st.last_detection_time < cfg.throttle_duration →
      (process_audio_chunk cfg now dominant st).2 = false) ∧
    ((process_audio_chunk cfg now dominant st).2 = true →
      (process_audio_chunk cfg now dominant st).1.last_detection_time = now) := by
  refine ⟨run_process_pairwise cfg hθ blocks st, ?_, ?_⟩
  · intro hlt
    rcases process_audio_chunk_cases cfg now dominant st with ⟨h2, _⟩ | ⟨_, _, hge⟩
    · exact h2
    · linarith
  · intro h2
    rcases process_audio_chunk_cases cfg now dominant st with ⟨h2f, _⟩ | ⟨_, hl, _⟩
    · rw [h2] at h2f
      exact absurd h2f (by simp)
    · exact hl

/-- Witness for C1 at a concrete configuration, run and block. -/
theorem C1_throttle_invariant_witness :
    List.Pairwise (fun a b : ℚ => a + defaultConfig.throttle_duration ≤ b)
      (run_process defaultConfig [] (initial_state 0)).2 ∧
    ((0 : ℚ) - (initial_state 0).last_detection_time <
        defaultConfig.throttle_duration →
      (process_audio_chunk defaultConfig 0 [] (initial_state 0)).2 = false) ∧
    ((process_audio_chunk defaultConfig 0 [] (initial_state 0)).2 = true →
      (process_audio_chunk defaultConfig 0 [] (initial_state 0)).1.last_detection_time
        = 0) :=
  C1_throttle_invariant defaultConfig (by decide) [] (initial_state 0) 0 []

/-- C3 counterexample: in state `COMPLETED` with the throttle window still open
(now = 5, last fire at 0, throttle 10), processing a block leaves the machine in
`COMPLETED` with index 3 — the unconditional reset to `WAITING`, index 0 claimed by
the spec does not happen on the throttled branch. -/
theorem C3_counterexample :
    (process_audio_chunk defaultConfig 5 [] completedState).1.current_state =
      DetectionState.COMPLETED ∧
    (process_audio_chunk defaultConfig 5 [] completedState).1.current_frequency_index
      = 3 ∧
    (process_audio_chunk defaultConfig 5 [] completedState).2 = false := by
  decide

/-- C3 (amended): when the state machine is in `COMPLETED` after the per-block
update, the fire-or-throttle decision resets the detector to `WAITING` with index 0
only when the callback actually fires; on the throttled branch the state is left
unchanged, still `COMPLETED`. -/
theorem C3_completed_reset (cfg : SDConfig) (now : ℚ) (dominant : List (ℚ × ℚ))
    (st : SDState) (hcb : st.detection_callback = true)
    (hc : (update_state_machine cfg now dominant st).current_state = .COMPLETED) :
    (cfg.throttle_duration ≤
        now - (update_state_machine cfg now dominant st).last_detection_time →
      (process_audio_chunk cfg now dominant st).1.current_state = .WAITING ∧
      (process_audio_chunk cfg now dominant st).1.current_frequency_index = 0 ∧
      (process_audio_chunk cfg now dominant st).2 = true) ∧
    (now - (update_state_machine cfg now dominant st).last_detection_time <
        cfg.throttle_duration →
      (process_audio_chunk cfg now dominant st).1 =
        update_state_machine cfg now dominant st ∧
      (process_audio_chunk cfg now dominant st).2 = false) := by
  constructor
  · intro hfire
    unfold process_audio_chunk
    rw [if_neg (by simp [hcb]), if_pos hc, if_pos hfire]
    exact ⟨rfl, rfl, rfl⟩
  · intro hlt
    unfold process_audio_chunk
    rw [if_neg (by simp [hcb]), if_pos hc,
      if_neg (not_le.mpr hlt)]
    exact ⟨rfl, rfl⟩

/-- Witness for C3 (amended): the fire branch at a concrete throttled-then-elapsed
instance. -/
theorem C3_completed_reset_witness :
    (process_audio_chunk defaultConfig 15 [] completedState).1.current_state =
      DetectionState.WAITING ∧
    (process_audio_chunk defaultConfig 15 []
      completedState).1.current_frequency_index = 0 ∧
    (process_audio_chunk defaultConfig 15 [] completedState).2 = true :=
  (C3_completed_reset defaultConfig 15 [] completedState (by decide) (by decide)).1
    (by decide)

/-- C10: when no detection callback has been registered, `process_audio_chunk`
returns immediately: the whole detector state is unchanged and the callback does not
fire. -/
theorem C10_no_callback_frame (cfg : SDConfig) (now : ℚ) (dominant : List (ℚ × ℚ))
    (st : SDState) :
    process_audio_chunk cfg now dominant { st with detection_callback := false } =
      ({ st with detection_callback := false }, false) := rfl

/-- C9: the spec-modelled time gate skips a block exactly when the pause test holds,
and the pause test realises the half-open window `[pause_start_hour,
pause_end_hour)` with midnight wraparound: for `[22, 8)` the suppressed hours are
`{22, 23, 0, ..., 7}`, for `[14, 18)` exactly `{14, ..., 17}`, and a disabled gate
suppresses nothing. -/
theorem C9_time_gate_pause_window :
    (∀ (σ : Type) (enable : Bool) (s e h : ℕ) (detect : σ → σ × Bool) (st : σ),
      pattern_process_block enable s e h detect st =
        if is_in_pause_window enable s e h then (st, false) else detect st) ∧
    (∀ h : Fin 24,
      (is_in_pause_window true 22 8 (h : ℕ) = decide (22 ≤ (h : ℕ) ∨ (h : ℕ) < 8)) ∧
      (is_in_pause_window true 14 18 (h : ℕ) =
        decide (14 ≤ (h : ℕ) ∧ (h : ℕ) < 18))) ∧
    (∀ (s e h : ℕ), is_in_pause_window false s e h = false) :=
  ⟨fun _ _ _ _ _ _ _ => rfl, by decide, fun _ _ _ => rfl⟩

/-! ## Ordered-sequence state machine lemmas -/

theorem update_core_of_completed (cfg : SDConfig) (now : ℚ) (detected : List ℚ)
    (st : SDState) (h : st.current_state = .COMPLETED) :
    update_core cfg now detected st = st := by
  unfold update_core
  rw [if_neg, if_neg]
  · rw [h]
    exact fun hw => absurd hw (by decide)
  · rintro ⟨hw, -, -⟩
    rw [h] at hw
    exact absurd hw (by decide)

theorem run_update_core_of_completed (cfg : SDConfig) :
    ∀ (l : List (List ℚ)) (st : SDState), st.current_state = .COMPLETED →
      run_update_core cfg l st = st := by
  intro l
  induction l with
  | nil => intro st _; rfl
  | cons d rest ih =>
    intro st h
    show run_update_core cfg rest (update_core cfg 0 d st) = st
    rw [update_core_of_completed cfg 0 d st h, ih st h]

theorem greedy_idx_stuck (targets : List ℚ) :
    ∀ (ds : List ℚ), greedy_idx targets targets.length ds = targets.length := by
  intro ds
  induction ds with
  | nil => rfl
  | cons d rest ih =>
    simp only [greedy_idx]
    rw [if_neg]
    · exact ih
    · rintro ⟨hlt, -⟩
      exact absurd hlt (lt_irrefl _)

theorem run_core_greedy (cfg : SDConfig) (ht : 0 ≤ cfg.state_timeout) :
    ∀ (ds : List ℚ) (st : SDState),
      st.current_state = .WAITING → st.state_transition_time = 0 →
      st.current_frequency_index < cfg.target_frequencies.length →
      ((run_update_core cfg (ds.map (fun d => [d])) st).current_state = .COMPLETED ↔
        greedy_idx cfg.target_frequencies st.current_frequency_index ds =
          cfg.target_frequencies.length) := by
  intro ds
  induction ds with
  | nil =>
    intro st hw _ hlt
    constructor
    · intro hc
      have h2 : st.current_state = .COMPLETED := hc
      rw [hw] at h2
      exact absurd h2 (by decide)
    · intro hg
      have h2 : st.current_frequency_index = cfg.target_frequencies.length := hg
      exact absurd h2 (Nat.ne_of_lt hlt)
  | cons d rest ih =>
    intro st hw hst hlt
    have hc1 : ¬(st.current_state = .WAITING ∧ st.current_frequency_index ≠ 0 ∧
        cfg.state_timeout < 0 - st.state_transition_time) := by
      rintro ⟨-, -, hlt2⟩
      rw [hst] at hlt2
      simp only [sub_zero] at hlt2
      linarith
    have hrun : run_update_core cfg ((d :: rest).map (fun x => [x])) st =
        run_update_core cfg (rest.map (fun x => [x])) (update_core cfg 0 [d] st) := rfl
    rw [hrun]
    by_cases hd : cfg.target_frequencies.getD st.current_frequency_index 0 = d
    · by_cases hlast : cfg.target_frequencies.length ≤ st.current_frequency_index + 1
      · have hu : update_core cfg 0 [d] st =
            { st with
              detected_frequencies := st.detected_frequencies ++
                [cfg.target_frequencies.getD st.current_frequency_index 0]
              current_frequency_index := st.current_frequency_index + 1
              state_transition_time := 0
              current_state := .COMPLETED } := by
          unfold update_core
          rw [if_neg hc1, if_pos hw, if_neg (not_le.mpr hlt),
            if_pos (List.mem_singleton.mpr hd), if_pos hlast]
        rw [hu, run_update_core_of_completed cfg _ _ rfl]
        have hidx : st.current_frequency_index + 1 = cfg.target_frequencies.length :=
          le_antisymm (Nat.succ_le_of_lt hlt) hlast
        constructor
        · intro _
          simp only [greedy_idx]
          rw [if_pos ⟨hlt, hd⟩, hidx]
          exact greedy_idx_stuck cfg.target_frequencies rest
        · intro _
          rfl
      · have hu : update_core cfg 0 [d] st =
            { st with
              detected_frequencies := st.detected_frequencies ++
                [cfg.target_frequencies.getD st.current_frequency_index 0]
              current_frequency_index := st.current_frequency_index + 1
              state_transition_time := 0 } := by
          unfold update_core
          rw [if_neg hc1, if_pos hw, if_neg (not_le.mpr hlt),
            if_pos (List.mem_singleton.mpr hd), if_neg hlast]
        rw [hu]
        have hih := ih
          { st with
            detected_frequencies := st.detected_frequencies ++
              [cfg.target_frequencies.getD st.current_frequency_index 0]
            current_frequency_index := st.current_frequency_index + 1
            state_transition_time := 0 }
          hw rfl (Nat.lt_of_not_le hlast)
        rw [hih]
        simp only [greedy_idx]
        rw [if_pos ⟨hlt, hd⟩]
    · have hu : update_core cfg 0 [d] st = st := by
        unfold update_core
        rw [if_neg hc1, if_pos hw, if_neg (not_le.mpr hlt), if_neg]
        intro hmem
        exact hd (List.mem_singleton.mp hmem)
      rw [hu]
      have hih := ih st hw hst hlt
      rw [hih]
      simp only [greedy_idx]
      rw [if_neg]
      rintro ⟨-, hd2⟩
      exact hd hd2

theorem greedy_idx_complete_sublist (targets : List ℚ) :
    ∀ (p : List ℚ) (idx : ℕ), idx ≤ targets.length →
      greedy_idx targets idx p = targets.length →
      List.Sublist (targets.drop idx) p := by
  intro p
  induction p with
  | nil =>
    intro idx _ hg
    have h2 : idx = targets.length := hg
    rw [h2, List.drop_length targets]
  | cons d rest ih =>
    intro idx hle hg
    by_cases hc : idx < targets.length ∧ targets.getD idx 0 = d
    · have hg2 : greedy_idx targets (idx + 1) rest = targets.length := by
        simp only [greedy_idx] at hg
        rwa [if_pos hc] at hg
      have hsub := ih (idx + 1) hc.1 hg2
      have hdrop : targets.drop idx = d :: targets.drop (idx + 1) := by
        rw [List.drop_eq_getElem_cons hc.1, ← List.getD_eq_getElem targets 0 hc.1, hc.2]
      rw [hdrop]
      exact hsub.cons₂ d
    · have hg2 : greedy_idx targets idx rest = targets.length := by
        simp only [greedy_idx] at hg
        rwa [if_neg hc] at hg
      exact (ih idx hle hg2).cons d

theorem greedy_idx_self (targets : List ℚ) :
    ∀ (suffix : List ℚ) (idx : ℕ), idx ≤ targets.length →
      targets.drop idx = suffix →
      greedy_idx targets idx suffix = targets.length := by
  intro suffix
  induction suffix with
  | nil =>
    intro idx hle hdrop
    have hlen : targets.length ≤ idx := List.drop_eq_nil_iff.mp hdrop
    exact le_antisymm hle hlen ▸ (le_antisymm hlen hle ▸ rfl)
  | cons d rest ih =>
    intro idx hle hdrop
    have hlt : idx < targets.length := by
      by_contra hnot
      rw [List.drop_eq_nil_iff.mpr (le_of_not_lt hnot)] at hdrop
      exact List.noConfusion hdrop
    rw [List.drop_eq_getElem_cons hlt] at hdrop
    injection hdrop with h1 h2
    have hget : targets.getD idx 0 = d := by
      rw [List.getD_eq_getElem targets 0 hlt]
      exact h1
    simp only [greedy_idx]
    rw [if_pos ⟨hlt, hget⟩]
    exact ih (idx + 1) hlt h2

/-- C4: in ordered-sequence mode, from `WAITING` without a pending timeout only a
sustained detection of the currently-expected target advances the index, the final
index transitions the state to `COMPLETED`, and a run presenting one sustained target
per block reaches `COMPLETED` exactly when the presented order is the target order
(so any other permutation of the targets never completes). -/
theorem C4_ordered_sequence (cfg : SDConfig) (ht : 0 ≤ cfg.state_timeout)
    (hne : cfg.target_frequencies ≠ []) (p : List ℚ)
    (hperm : p.Perm cfg.target_frequencies) :
    (∀ (now : ℚ) (detected : List ℚ) (st : SDState),
      st.current_state = .WAITING →
      ¬(st.current_frequency_index ≠ 0 ∧
        cfg.state_timeout < now - st.state_transition_time) →
      st.current_frequency_index < cfg.target_frequencies.length →
      ((update_core cfg now detected st).current_frequency_index =
        (if cfg.target_frequencies.getD st.current_frequency_index 0 ∈ detected
         then st.current_frequency_index + 1 else st.current_frequency_index)) ∧
      ((update_core cfg now detected st).current_state = .COMPLETED ↔
        (cfg.target_frequencies.getD st.current_frequency_index 0 ∈ detected ∧
          st.current_frequency_index + 1 = cfg.target_frequencies.length))) ∧
    ((run_update_core cfg (p.map (fun d => [d]))
        (initial_state 0)).current_state = .COMPLETED ↔
      p = cfg.target_frequencies) := by
  constructor
  · intro now detected st hw hno hlt
    have hc1 : ¬(st.current_state = .WAITING ∧ st.current_frequency_index ≠ 0 ∧
        cfg.state_timeout < now - st.state_transition_time) := by
      rintro ⟨-, h2, h3⟩
      exact hno ⟨h2, h3⟩
    by_cases hmem : cfg.target_frequencies.getD st.current_frequency_index 0 ∈ detected
    · by_cases hlast : cfg.target_frequencies.length ≤ st.current_frequency_index + 1
      · have hu : update_core cfg now detected st =
            { st with
              detected_frequencies := st.detected_frequencies ++
                [cfg.target_frequencies.getD st.current_frequency_index 0]
              current_frequency_index := st.current_frequency_index + 1
              state_transition_time := now
              current_state := .COMPLETED } := by
          unfold update_core
          rw [if_neg hc1, if_pos hw, if_neg (not_le.mpr hlt), if_pos hmem,
            if_pos hlast]
        rw [hu, if_pos hmem]
        refine ⟨rfl, ?_⟩
        constructor
        · intro _
          exact ⟨hmem, le_antisymm (Nat.succ_le_of_lt hlt) hlast⟩
        · intro _
          rfl
      · have hu : update_core cfg now detected st =
            { st with
              detected_frequencies := st.detected_frequencies ++
                [cfg.target_frequencies.getD st.current_frequency_index 0]
              current_frequency_index := st.current_frequency_index + 1
              state_transition_time := now } := by
          unfold update_core
          rw [if_neg hc1, if_pos hw, if_neg (not_le.mpr hlt), if_pos hmem,
            if_neg hlast]
        rw [hu, if_pos hmem]
        refine ⟨rfl, ?_⟩
        constructor
        · intro hcs
          have h2 : st.current_state = .COMPLETED := hcs
          rw [hw] at h2
          exact absurd h2 (by decide)
        · rintro ⟨-, hfin⟩
          exact absurd (le_of_eq hfin.symm) hlast
    · have hu : update_core cfg now detected st = st := by
        unfold update_core
        rw [if_neg hc1, if_pos hw, if_neg (not_le.mpr hlt), if_neg hmem]
      rw [hu, if_neg hmem]
      refine ⟨rfl, ?_⟩
      constructor
      · intro hcs
        rw [hw] at hcs
        exact absurd hcs (by decide)
      · rintro ⟨hmem2, -⟩
        exact absurd hmem2 hmem
  · have hlen0 : 0 < cfg.target_frequencies.length :=
      List.length_pos.mpr hne
    have hiff := run_core_greedy cfg ht p (initial_state 0) rfl rfl hlen0
    rw [hiff]
    constructor
    · intro hg
      have hsub := greedy_idx_complete_sublist cfg.target_frequencies p 0
        (Nat.zero_le _) hg
      rw [List.drop_zero] at hsub
      have hlen : cfg.target_frequencies.length = p.length := hperm.length_eq.symm
      exact (hsub.eq_of_length hlen).symm
    · intro hp
      rw [hp]
      exact greedy_idx_self cfg.target_frequencies cfg.target_frequencies 0
        (Nat.zero_le _) (List.drop_zero _)

/-- Witness for C4: the two-tone sequence presented in reverse order, which the
theorem shows cannot complete. -/
theorem C4_ordered_sequence_witness :
    (run_update_core seqConfig (([(1700 : ℚ), 1000]).map (fun d => [d]))
        (initial_state 0)).current_state = .COMPLETED ↔
      [(1700 : ℚ), 1000] = seqConfig.target_frequencies :=
  (C4_ordered_sequence seqConfig (by decide) (by decide) [(1700 : ℚ), 1000]
    (by decide)).2

/-! ## Sustained-detection lemmas: the per-target peak scan -/

theorem scan_peaks_cons (cfg : SDConfig) (now thr t f a : ℚ)
    (rest : List (ℚ × ℚ)) (times : ℚ → List ℚ) :
    scan_peaks cfg now thr t ((f, a) :: rest) times =
      if (harmonic_match cfg f t && decide (thr ≤ a)) = true then
        (if min_detections cfg ≤
            (pruneTimes (now - cfg.detection_duration) (times t ++ [now])).length then
          (updFn times t
            (pruneTimes (now - cfg.detection_duration) (times t ++ [now])), true)
        else
          scan_peaks cfg now thr t rest
            (updFn times t
              (pruneTimes (now - cfg.detection_duration) (times t ++ [now]))))
      else scan_peaks cfg now thr t rest times := rfl

theorem scan_peaks_no_match (cfg : SDConfig) (now thr t : ℚ) :
    ∀ (l : List (ℚ × ℚ)) (times : ℚ → List ℚ),
      (∀ p ∈ l, (harmonic_match cfg p.1 t && decide (thr ≤ p.2)) = false) →
      scan_peaks cfg now thr t l times = (times, false) := by
  intro l
  induction l with
  | nil => intro times _; rfl
  | cons q rest ih =>
    intro times h
    obtain ⟨f, a⟩ := q
    have hp : (harmonic_match cfg f t && decide (thr ≤ a)) = false :=
      h (f, a) (List.mem_cons_self _ _)
    simp only [scan_peaks]
    rw [if_neg (by simp [hp])]
    exact ih times (fun q hq => h q (List.mem_cons_of_mem _ hq))

theorem scan_peaks_other_key (cfg : SDConfig) (now thr t : ℚ) :
    ∀ (l : List (ℚ × ℚ)) (times : ℚ → List ℚ) (x : ℚ), x ≠ t →
      (scan_peaks cfg now thr t l times).1 x = times x := by
  intro l
  induction l with
  | nil => intro times x _; rfl
  | cons q rest ih =>
    intro times x hx
    obtain ⟨f, a⟩ := q
    simp only [scan_peaks]
    by_cases hm : (harmonic_match cfg f t && decide (thr ≤ a)) = true
    · rw [if_pos hm]
      by_cases hlen : min_detections cfg ≤
          (pruneTimes (now - cfg.detection_duration) (times t ++ [now])).length
      · rw [if_pos hlen]
        simp [updFn, hx]
      · rw [if_neg hlen]
        rw [ih _ x hx]
        simp [updFn, hx]
    · rw [if_neg hm]
      exact ih times x hx

theorem scan_peaks_congr (cfg : SDConfig) (now thr t : ℚ) :
    ∀ (l : List (ℚ × ℚ)) (times1 times2 : ℚ → List ℚ), times1 t = times2 t →
      (scan_peaks cfg now thr t l times1).1 t =
        (scan_peaks cfg now thr t l times2).1 t ∧
      (scan_peaks cfg now thr t l times1).2 =
        (scan_peaks cfg now thr t l times2).2 := by
  intro l
  induction l with
  | nil => intro times1 times2 h; exact ⟨h, rfl⟩
  | cons q rest ih =>
    intro times1 times2 h
    obtain ⟨f, a⟩ := q
    rw [scan_peaks_cons, scan_peaks_cons, h]
    by_cases hm : (harmonic_match cfg f t && decide (thr ≤ a)) = true
    · rw [if_pos hm, if_pos hm]
      by_cases hlen : min_detections cfg ≤
          (pruneTimes (now - cfg.detection_duration) (times2 t ++ [now])).length
      · rw [if_pos hlen, if_pos hlen]
        exact ⟨by simp [updFn], rfl⟩
      · rw [if_neg hlen, if_neg hlen]
        exact ih _ _ (by simp [updFn])
    · rw [if_neg hm, if_neg hm]
      exact ih _ _ h

theorem scan_peaks_hit_iff (cfg : SDConfig) (now thr t : ℚ) :
    ∀ (l : List (ℚ × ℚ)) (times : ℚ → List ℚ),
      (∃ p ∈ l, (harmonic_match cfg p.1 t && decide (thr ≤ p.2)) = true) →
      ((scan_peaks cfg now thr t l times).2 = true ↔
        min_detections cfg ≤ ((scan_peaks cfg now thr t l times).1 t).length) := by
  intro l
  induction l with
  | nil =>
    intro times hex
    obtain ⟨p, hp, -⟩ := hex
    exact absurd hp (List.not_mem_nil p)
  | cons q rest ih =>
    intro times hex
    obtain ⟨f, a⟩ := q
    simp only [scan_peaks]
    by_cases hm : (harmonic_match cfg f t && decide (thr ≤ a)) = true
    · rw [if_pos hm]
      by_cases hlen : min_detections cfg ≤
          (pruneTimes (now - cfg.detection_duration) (times t ++ [now])).length
      · rw [if_pos hlen]
        constructor
        · intro _
          simpa [updFn] using hlen
        · intro _
          rfl
      · rw [if_neg hlen]
        by_cases hrest :
            ∃ p ∈ rest, (harmonic_match cfg p.1 t && decide (thr ≤ p.2)) = true
        · exact ih _ hrest
        · have hall :
              ∀ p ∈ rest, (harmonic_match cfg p.1 t && decide (thr ≤ p.2)) = false := by
            intro p hp
            by_contra hne
            exact hrest ⟨p, hp, by simpa using hne⟩
          rw [scan_peaks_no_match cfg now thr t rest _ hall]
          constructor
          · intro hfalse
            exact absurd hfalse (by simp)
          · intro hle
            exfalso
            exact hlen (by simpa [updFn] using hle)
    · rw [if_neg hm]
      obtain ⟨p, hp, hcond⟩ := hex
      rcases List.mem_cons.mp hp with rfl | hp2
      · exact absurd hcond hm
      · exact ih times ⟨p, hp2, hcond⟩

theorem scan_peaks_growth (cfg : SDConfig) (now thr t : ℚ) :
    ∀ (l : List (ℚ × ℚ)) (times : ℚ → List ℚ),
      ((scan_peaks cfg now thr t l times).1 t).length ≤
        (times t).length +
          (l.filter (fun p => harmonic_match cfg p.1 t && decide (thr ≤ p.2))).length := by
  intro l
  induction l with
  | nil => intro times; simp [scan_peaks]
  | cons q rest ih =>
    intro times
    obtain ⟨f, a⟩ := q
    have hlst : (pruneTimes (now - cfg.detection_duration) (times t ++ [now])).length ≤
        (times t).length + 1 := by
      calc (pruneTimes (now - cfg.detection_duration) (times t ++ [now])).length ≤
            (times t ++ [now]).length := List.length_filter_le _ _
        _ = (times t).length + 1 := by simp
    simp only [scan_peaks, List.filter_cons]
    by_cases hm : (harmonic_match cfg f t && decide (thr ≤ a)) = true
    · rw [if_pos hm, if_pos hm]
      by_cases hlen : min_detections cfg ≤
          (pruneTimes (now - cfg.detection_duration) (times t ++ [now])).length
      · rw [if_pos hlen]
        dsimp only
        have h3 : (updFn times t
            (pruneTimes (now - cfg.detection_duration) (times t ++ [now]))) t =
            pruneTimes (now - cfg.detection_duration) (times t ++ [now]) := by
          simp [updFn]
        rw [h3]
        simp only [List.length_cons]
        omega
      · rw [if_neg hlen]
        have h2 := ih (updFn times t
          (pruneTimes (now - cfg.detection_duration) (times t ++ [now])))
        have h3 : (updFn times t
            (pruneTimes (now - cfg.detection_duration) (times t ++ [now]))) t =
            pruneTimes (now - cfg.detection_duration) (times t ++ [now]) := by
          simp [updFn]
        rw [h3] at h2
        simp only [List.length_cons]
        omega
    · rw [if_neg hm, if_neg hm]
      exact ih times

theorem scan_peaks_hit_bound (cfg : SDConfig) (now thr t : ℚ) :
    ∀ (l : List (ℚ × ℚ)) (times : ℚ → List ℚ),
      (scan_peaks cfg now thr t l times).2 = true →
      min_detections cfg ≤ (times t).length +
        (l.filter (fun p => harmonic_match cfg p.1 t && decide (thr ≤ p.2))).length := by
  intro l
  induction l with
  | nil =>
    intro times h
    exact absurd h (by simp [scan_peaks])
  | cons q rest ih =>
    intro times h
    obtain ⟨f, a⟩ := q
    have hlst : (pruneTimes (now - cfg.detection_duration) (times t ++ [now])).length ≤
        (times t).length + 1 := by
      calc (pruneTimes (now - cfg.detection_duration) (times t ++ [now])).length ≤
            (times t ++ [now]).length := List.length_filter_le _ _
        _ = (times t).length + 1 := by simp
    simp only [scan_peaks, List.filter_cons] at h ⊢
    by_cases hm : (harmonic_match cfg f t && decide (thr ≤ a)) = true
    · rw [if_pos hm] at h
      rw [if_pos hm]
      by_cases hlen : min_detections cfg ≤
          (pruneTimes (now - cfg.detection_duration) (times t ++ [now])).length
      · simp only [List.length_cons]
        omega
      · rw [if_neg hlen] at h
        have h2 := ih _ h
        have h3 : (updFn times t
            (pruneTimes (now - cfg.detection_duration) (times t ++ [now]))) t =
            pruneTimes (now - cfg.detection_duration) (times t ++ [now]) := by
          simp [updFn]
        rw [h3] at h2
        simp only [List.length_cons]
        omega
    · rw [if_neg hm] at h
      rw [if_neg hm]
      exact ih times h

/-! ## Sustained-detection lemmas: the per-block target loop -/

theorem detect_loop_cons (cfg : SDConfig) (now thr : ℚ) (dominant : List (ℚ × ℚ))
    (t : ℚ) (ts : List ℚ) (times : ℚ → List ℚ) :
    detect_loop cfg now thr dominant (t :: ts) times =
      ((detect_loop cfg now thr dominant ts
          (scan_peaks cfg now thr t dominant times).1).1,
        (if (scan_peaks cfg now thr t dominant times).2 then [t] else []) ++
          (detect_loop cfg now thr dominant ts
            (scan_peaks cfg now thr t dominant times).1).2) := rfl

theorem detect_loop_subset (cfg : SDConfig) (now thr : ℚ)
    (dominant : List (ℚ × ℚ)) :
    ∀ (ts : List ℚ) (times : ℚ → List ℚ) (x : ℚ),
      x ∈ (detect_loop cfg now thr dominant ts times).2 → x ∈ ts := by
  intro ts
  induction ts with
  | nil => intro times x hx; exact absurd hx (List.not_mem_nil x)
  | cons t ts2 ih =>
    intro times x hx
    rw [detect_loop_cons] at hx
    dsimp only at hx
    rcases List.mem_append.mp hx with h1 | h2
    · by_cases hh : (scan_peaks cfg now thr t dominant times).2 = true
      · rw [if_pos hh] at h1
        rw [List.mem_singleton.mp h1]
        exact List.mem_cons_self _ _
      · rw [if_neg hh] at h1
        exact absurd h1 (List.not_mem_nil x)
    · exact List.mem_cons_of_mem _ (ih _ x h2)

theorem detect_loop_other_key (cfg : SDConfig) (now thr : ℚ)
    (dominant : List (ℚ × ℚ)) :
    ∀ (ts : List ℚ) (times : ℚ → List ℚ) (x : ℚ), x ∉ ts →
      (detect_loop cfg now thr dominant ts times).1 x = times x := by
  intro ts
  induction ts with
  | nil => intro times x _; rfl
  | cons t ts2 ih =>
    intro times x hx
    have hxt : x ≠ t := fun he => hx (he ▸ List.mem_cons_self t ts2)
    have hxts : x ∉ ts2 := fun hm => hx (List.mem_cons_of_mem t hm)
    rw [detect_loop_cons]
    dsimp only
    rw [ih _ x hxts, scan_peaks_other_key cfg now thr t dominant times x hxt]

theorem detect_loop_key (cfg : SDConfig) (now thr : ℚ) (dominant : List (ℚ × ℚ)) :
    ∀ (ts : List ℚ) (times : ℚ → List ℚ) (t : ℚ), t ∈ ts → ts.Nodup →
      ((detect_loop cfg now thr dominant ts times).1 t =
        (scan_peaks cfg now thr t dominant times).1 t ∧
      (t ∈ (detect_loop cfg now thr dominant ts times).2 ↔
        (scan_peaks cfg now thr t dominant times).2 = true)) := by
  intro ts
  induction ts with
  | nil => intro times t ht _; exact absurd ht (List.not_mem_nil t)
  | cons u ts2 ih =>
    intro times t ht hnd
    have hnd2 := List.nodup_cons.mp hnd
    rcases List.mem_cons.mp ht with rfl | hts2
    · rw [detect_loop_cons]
      dsimp only
      constructor
      · exact detect_loop_other_key cfg now thr dominant ts2 _ t hnd2.1
      · constructor
        · intro hmem
          rcases List.mem_append.mp hmem with h1 | h2
          · by_cases hh : (scan_peaks cfg now thr t dominant times).2 = true
            · exact hh
            · rw [if_neg hh] at h1
              exact absurd h1 (List.not_mem_nil t)
          · exact absurd (detect_loop_subset cfg now thr dominant ts2 _ t h2) hnd2.1
        · intro hh
          rw [if_pos hh]
          exact List.mem_append_left _ (List.mem_singleton.mpr rfl)
    · have htne : t ≠ u := fun he => hnd2.1 (he ▸ hts2)
      rw [detect_loop_cons]
      dsimp only
      have hscan := scan_peaks_other_key cfg now thr u dominant times t htne
      have hihs := ih (scan_peaks cfg now thr u dominant times).1 t hts2 hnd2.2
      have hcongr := scan_peaks_congr cfg now thr t dominant
        (scan_peaks cfg now thr u dominant times).1 times hscan
      constructor
      · rw [hihs.1, hcongr.1]
      · constructor
        · intro hmem
          rcases List.mem_append.mp hmem with h1 | h2
          · by_cases hh : (scan_peaks cfg now thr u dominant times).2 = true
            · rw [if_pos hh] at h1
              exact absurd (List.mem_singleton.mp h1) htne
            · rw [if_neg hh] at h1
              exact absurd h1 (List.not_mem_nil t)
          · rw [← hcongr.2]
            exact hihs.2.mp h2
        · intro hh
          refine List.mem_append_right _ ?_
          refine hihs.2.mpr ?_
          rw [hcongr.2]
          exact hh

/-! ## Sustained-detection lemmas: `_detect_target_frequencies` and runs -/

theorem detect_mem_iff (cfg : SDConfig) (t : ℚ)
    (hnd : cfg.target_frequencies.Nodup) :
    ∀ (now : ℚ) (dominant : List (ℚ × ℚ)) (times : ℚ → List ℚ),
      t ∈ cfg.target_frequencies →
      (∃ p ∈ dominant, (harmonic_match cfg p.1 t &&
        decide (maxSnd dominant * cfg.detection_threshold ≤ p.2)) = true) →
      (t ∈ (detect_target_frequencies cfg now dominant times).2 ↔
        min_detections cfg ≤
          ((detect_target_frequencies cfg now dominant times).1 t).length) := by
  intro now dominant times htmem hex
  have hne : dominant ≠ [] := by
    obtain ⟨p, hp, -⟩ := hex
    exact List.ne_nil_of_mem hp
  unfold detect_target_frequencies
  rw [if_neg (by simpa [List.isEmpty_iff] using hne)]
  have hkey := detect_loop_key cfg now (maxSnd dominant * cfg.detection_threshold)
    dominant cfg.target_frequencies times t htmem hnd
  rw [hkey.1, hkey.2]
  exact scan_peaks_hit_iff cfg now _ t dominant times hex

theorem detect_mem_bound (cfg : SDConfig) (t : ℚ)
    (hnd : cfg.target_frequencies.Nodup) :
    ∀ (now : ℚ) (dominant : List (ℚ × ℚ)) (times : ℚ → List ℚ),
      t ∈ (detect_target_frequencies cfg now dominant times).2 →
      min_detections cfg ≤ (times t).length +
        matching_peaks cfg (maxSnd dominant * cfg.detection_threshold) t dominant := by
  intro now dominant times hmem
  unfold detect_target_frequencies at hmem
  by_cases hne : dominant.isEmpty = true
  · rw [if_pos hne] at hmem
    exact absurd hmem (List.not_mem_nil t)
  · rw [if_neg hne] at hmem
    have htmem := detect_loop_subset cfg now _ dominant cfg.target_frequencies times t hmem
    have hkey := detect_loop_key cfg now (maxSnd dominant * cfg.detection_threshold)
      dominant cfg.target_frequencies times t htmem hnd
    exact scan_peaks_hit_bound cfg now _ t dominant times (hkey.2.mp hmem)

theorem detect_growth (cfg : SDConfig) (t : ℚ)
    (hnd : cfg.target_frequencies.Nodup) :
    ∀ (now : ℚ) (dominant : List (ℚ × ℚ)) (times : ℚ → List ℚ),
      ((detect_target_frequencies cfg now dominant times).1 t).length ≤
        (times t).length +
          matching_peaks cfg (maxSnd dominant * cfg.detection_threshold) t dominant := by
  intro now dominant times
  unfold detect_target_frequencies
  by_cases hne : dominant.isEmpty = true
  · rw [if_pos hne]
    exact Nat.le_add_right _ _
  · rw [if_neg hne]
    by_cases htmem : t ∈ cfg.target_frequencies
    · have hkey := detect_loop_key cfg now (maxSnd dominant * cfg.detection_threshold)
        dominant cfg.target_frequencies times t htmem hnd
      rw [hkey.1]
      exact scan_peaks_growth cfg now _ t dominant times
    · rw [detect_loop_other_key cfg now _ dominant cfg.target_frequencies times t htmem]
      exact Nat.le_add_right _ _

theorem run_detect_never (cfg : SDConfig) (t : ℚ)
    (hnd : cfg.target_frequencies.Nodup) :
    ∀ (blocks : List (ℚ × List (ℚ × ℚ))) (times : ℚ → List ℚ),
      (∀ b ∈ blocks,
        matching_peaks cfg (maxSnd b.2 * cfg.detection_threshold) t b.2 ≤ 1) →
      (times t).length + blocks.length < min_detections cfg →
      ∀ d ∈ (run_detect cfg blocks times).2, t ∉ d := by
  intro blocks
  induction blocks with
  | nil => intro times _ _ d hd; exact absurd hd (List.not_mem_nil d)
  | cons b rest ih =>
    intro times hcnt hlen d hd
    have hrun : run_detect cfg (b :: rest) times =
        ((run_detect cfg rest (detect_target_frequencies cfg b.1 b.2 times).1).1,
          (detect_target_frequencies cfg b.1 b.2 times).2 ::
            (run_detect cfg rest (detect_target_frequencies cfg b.1 b.2 times).1).2) :=
      rfl
    rw [hrun] at hd
    rcases List.mem_cons.mp hd with rfl | hd2
    · intro htmem
      have hb := detect_mem_bound cfg t hnd b.1 b.2 times htmem
      have hmp := hcnt b (List.mem_cons_self _ _)
      simp only [List.length_cons] at hlen
      omega
    · intro htmem
      have hg := detect_growth cfg t hnd b.1 b.2 times
      have hmp := hcnt b (List.mem_cons_self _ _)
      simp only [List.length_cons] at hlen
      exact ih (detect_target_frequencies cfg b.1 b.2 times).1
        (fun b2 hb2 => hcnt b2 (List.mem_cons_of_mem _ hb2))
        (by omega) d hd2 htmem

/-! ## Claims about sustained detection -/

/-- C2 counterexample: with the default configuration (`detection_duration = 0.5`,
`sample_rate = 44100`, `chunk_size = 4096`) the spec's threshold
`ceil(detection_duration * sample_rate / chunk_size)` is 6, yet feeding the 440 Hz
target as a single dominant peak for only 5 consecutive blocks (timestamps within the
duration window) already yields a sustained detection on the fifth block — the code
uses `max(1, int(...))`, i.e. truncation, which gives 5. -/
theorem C2_counterexample :
    min_detections_ceil defaultConfig = 6 ∧
    min_detections defaultConfig = 5 ∧
    (run_detect defaultConfig
      [(0, [(440, 1)]), (1/100, [(440, 1)]), (2/100, [(440, 1)]),
       (3/100, [(440, 1)]), (4/100, [(440, 1)])] (fun _ => [])).2 =
      [[], [], [], [], [440]] := by
  refine ⟨by decide, by decide, by decide⟩

/-- C2 (amended): the sustained-detection threshold is
`max(1, int(detection_duration * sample_rate / chunk_size))` (truncation, not
ceiling); when some dominant peak of the block matches the target (harmonics within
tolerance, amplitude at or above the relative threshold), the target is
sustained-detected for the block exactly when its pruned, just-updated record reaches
that threshold; each matching peak appends one timestamp before the check, so with at
most one matching peak per block, starting from an empty record, fewer than that many
blocks never yield a sustained detection. -/
theorem C2_sustained_detection (cfg : SDConfig) (t : ℚ)
    (hnd : cfg.target_frequencies.Nodup) :
    min_detections cfg =
      max 1 (pyInt (cfg.detection_duration * cfg.sample_rate / cfg.chunk_size)).toNat ∧
    (∀ (now : ℚ) (dominant : List (ℚ × ℚ)) (times : ℚ → List ℚ),
      t ∈ cfg.target_frequencies →
      (∃ p ∈ dominant, (harmonic_match cfg p.1 t &&
        decide (maxSnd dominant * cfg.detection_threshold ≤ p.2)) = true) →
      (t ∈ (detect_target_frequencies cfg now dominant times).2 ↔
        min_detections cfg ≤
          ((detect_target_frequencies cfg now dominant times).1 t).length)) ∧
    (∀ (blocks : List (ℚ × List (ℚ × ℚ))) (times : ℚ → List ℚ),
      (∀ b ∈ blocks,
        matching_peaks cfg (maxSnd b.2 * cfg.detection_threshold) t b.2 ≤ 1) →
      (times t).length + blocks.length < min_detections cfg →
      ∀ d ∈ (run_detect cfg blocks times).2, t ∉ d) :=
  ⟨rfl,
    fun now dominant times htmem hex => detect_mem_iff cfg t hnd now dominant times htmem hex,
    run_detect_never cfg t hnd⟩

/-- Witness for C2 (amended): the per-block characterisation applied to one
concrete matching block. -/
theorem C2_sustained_detection_witness :
    (440 : ℚ) ∈ (detect_target_frequencies defaultConfig 0 [(440, 1)]
        (fun _ => [])).2 ↔
      min_detections defaultConfig ≤
        ((detect_target_frequencies defaultConfig 0 [(440, 1)]
          (fun _ => [])).1 440).length :=
  (C2_sustained_detection defaultConfig 440 (by decide)).2.1 0 [(440, 1)]
    (fun _ => []) (by decide) ⟨(440, 1), by decide, by decide⟩

/-! ## DTW lemmas -/

theorem minO_nonneg {a b : Option ℚ} (ha : NonnegO a) (hb : NonnegO b) :
    NonnegO (minO a b) := by
  intro d hd
  cases a with
  | none => exact hb d hd
  | some x =>
    cases b with
    | none => exact ha d hd
    | some y =>
      simp only [minO] at hd
      injection hd with h
      rw [← h]
      exact le_min (ha x rfl) (hb y rfl)

theorem addO_nonneg {c : ℚ} (hc : 0 ≤ c) {v : Option ℚ} (hv : NonnegO v) :
    NonnegO (addO c v) := by
  intro d hd
  cases v with
  | none => exact absurd hd (by simp [addO])
  | some x =>
    simp only [addO] at hd
    injection hd with h
    rw [← h]
    exact add_nonneg hc (hv x rfl)

theorem minO_some_zero {a : Option ℚ} (ha : NonnegO a) : minO a (some 0) = some 0 := by
  cases a with
  | none => rfl
  | some x =>
    simp only [minO]
    rw [min_eq_right (ha x rfl)]

theorem dtw_row_nonneg (cost : ℕ → ℕ → ℚ) (w m : ℕ) (prev : ℕ → Option ℚ) (i : ℕ)
    (hcost : ∀ i j, 0 ≤ cost i j) (hprev : ∀ j, NonnegO (prev j)) :
    ∀ j, NonnegO (dtw_row cost w m prev i j) := by
  intro j
  induction j with
  | zero =>
    intro d hd
    exact absurd hd (by simp [dtw_row])
  | succ j ih =>
    simp only [dtw_row]
    split
    · exact addO_nonneg (hcost i (j + 1))
        (minO_nonneg (hprev (j + 1)) (minO_nonneg ih (hprev j)))
    · intro d hd
      exact absurd hd (by simp)

theorem dtw_rows_nonneg (cost : ℕ → ℕ → ℚ) (w m : ℕ)
    (hcost : ∀ i j, 0 ≤ cost i j) :
    ∀ i j, NonnegO (dtw_rows cost w m i j) := by
  intro i
  induction i with
  | zero =>
    intro j d hd
    by_cases hj : j = 0
    · subst hj
      have h2 : some (0 : ℚ) = some d := hd
      injection h2 with h
      rw [← h]
    · exfalso
      have h2 : dtw_rows cost w m 0 j = none := by
        simp only [dtw_rows]
        rw [if_neg hj]
      rw [h2] at hd
      cases hd
  | succ i ih =>
    intro j
    exact dtw_row_nonneg cost w m (dtw_rows cost w m i) (i + 1) hcost ih j

theorem dtw_rows_diag (cost : ℕ → ℕ → ℚ) (w m : ℕ)
    (hcost : ∀ i j, 0 ≤ cost i j) (hdiag : ∀ i, cost i i = 0) (hw : 1 ≤ w) :
    ∀ i, i ≤ m → dtw_rows cost w m i i = some 0 := by
  intro i
  induction i with
  | zero => intro _; simp [dtw_rows]
  | succ i ih =>
    intro hle
    show dtw_row cost w m (dtw_rows cost w m i) (i + 1) (i + 1) = some 0
    simp only [dtw_row]
    rw [if_pos (by omega)]
    rw [ih (Nat.le_of_succ_le hle)]
    rw [show dtw_row cost w m (dtw_rows cost w m i) (i + 1) i =
      dtw_rows cost w m (i + 1) i from rfl]
    rw [minO_some_zero (dtw_rows_nonneg cost w m hcost (i + 1) i)]
    rw [minO_some_zero (dtw_rows_nonneg cost w m hcost i (i + 1))]
    rw [hdiag (i + 1)]
    simp [addO]

theorem calc_sim_bounds (cost : ℕ → ℕ → ℚ) (ratio : ℚ) (n m : ℕ) (exc : Bool)
    (hcost : ∀ i j, 0 ≤ cost i j) :
    0 ≤ calculate_similarity_features cost ratio n m exc ∧
    calculate_similarity_features cost ratio n m exc ≤ 1 := by
  unfold calculate_similarity_features
  by_cases h0 : n = 0 ∨ m = 0
  · rw [if_pos h0]
    norm_num
  · rw [if_neg h0]
    by_cases he : exc = true
    · rw [if_pos he]
      norm_num
    · rw [if_neg he]
      cases hdd : dtw_distance_optimized cost ratio n m with
      | none =>
        refine ⟨?_, ?_⟩ <;> norm_num
      | some d =>
        show 0 ≤ 1 - Real.exp (-(((d / ((n : ℚ) + (m : ℚ))) : ℚ) : ℝ)) ∧
          1 - Real.exp (-(((d / ((n : ℚ) + (m : ℚ))) : ℚ) : ℝ)) ≤ 1
        have hd0 : 0 ≤ d :=
          dtw_rows_nonneg cost (window_constraint ratio n m) m hcost n m d hdd
        have hx : (0 : ℚ) ≤ d / ((n : ℚ) + (m : ℚ)) := by
          apply div_nonneg hd0
          positivity
        have hexp : Real.exp (-(((d / ((n : ℚ) + (m : ℚ))) : ℚ) : ℝ)) ≤ 1 := by
          rw [← Real.exp_zero]
          apply Real.exp_le_exp.mpr
          simp only [neg_nonpos]
          exact_mod_cast hx
        have hpos : 0 < Real.exp (-(((d / ((n : ℚ) + (m : ℚ))) : ℚ) : ℝ)) :=
          Real.exp_pos _
        constructor
        · linarith
        · linarith

/-! ## Claims about the DTW engine -/

/-- C5: `calculate_similarity_features` returns exactly 1.0 when either feature
sequence is empty, returns 1.0 (never propagating) when the DTW computation raises,
and the result always lies in the closed interval [0, 1]. -/
theorem C5_similarity_error_handling (cost : ℕ → ℕ → ℚ) (ratio : ℚ) (n m : ℕ)
    (exc : Bool) (hcost : ∀ i j, 0 ≤ cost i j) :
    (n = 0 ∨ m = 0 → calculate_similarity_features cost ratio n m exc = 1) ∧
    (exc = true → calculate_similarity_features cost ratio n m exc = 1) ∧
    0 ≤ calculate_similarity_features cost ratio n m exc ∧
    calculate_similarity_features cost ratio n m exc ≤ 1 := by
  refine ⟨?_, ?_, (calc_sim_bounds cost ratio n m exc hcost).1,
    (calc_sim_bounds cost ratio n m exc hcost).2⟩
  · intro h
    unfold calculate_similarity_features
    rw [if_pos h]
  · intro h
    unfold calculate_similarity_features
    by_cases h0 : n = 0 ∨ m = 0
    · rw [if_pos h0]
    · rw [if_neg h0, if_pos h]

/-- Witness for C5 at a concrete cost function and sequence lengths. -/
theorem C5_similarity_error_handling_witness :
    0 ≤ calculate_similarity_features (fun _ _ => 0) (1/10) 2 3 false ∧
    calculate_similarity_features (fun _ _ => 0) (1/10) 2 3 false ≤ 1 :=
  ⟨(C5_similarity_error_handling (fun _ _ => 0) (1/10) 2 3 false
      (fun _ _ => le_rfl)).2.2.1,
    (C5_similarity_error_handling (fun _ _ => 0) (1/10) 2 3 false
      (fun _ _ => le_rfl)).2.2.2⟩

/-- C6 counterexample: the code's window is `max(1, int(max(n,m) * ratio))`
(truncation), not `max(1, round(...))`: at lengths 15 and ratio 1/10 the code gives 1
where the claimed formula gives 2.  And for non-empty sequences of lengths 1 and 5,
the band never reaches the final cell, so the score is exactly 1.0, outside the
claimed half-open interval [0, 1). -/
theorem C6_counterexample :
    window_constraint (1/10) 15 15 = 1 ∧
    window_spec (1/10) 15 15 = 2 ∧
    calculate_similarity_features (fun _ _ => 0) (1/10) 1 5 false = 1 := by
  refine ⟨by decide, by decide, ?_⟩
  have hd : dtw_distance_optimized (fun _ _ => 0) (1/10) 1 5 = none := by decide
  unfold calculate_similarity_features
  rw [if_neg (by norm_num), if_neg (by simp), hd]

/-- C6 (amended): the band half-width is `max(1, int(max(lenA,lenB) * ratio))`
(truncation, not rounding); when the band reaches the final cell with accumulated
cost d, the score is `1 - exp(-(d / (lenA + lenB)))` and lies in [0, 1); when the band
never reaches the final cell the score is exactly 1.0. -/
theorem C6_dtw_band_normalization (cost : ℕ → ℕ → ℚ) (ratio : ℚ) (n m : ℕ)
    (hn : 1 ≤ n) (hm : 1 ≤ m) (hcost : ∀ i j, 0 ≤ cost i j) :
    window_constraint ratio n m =
      max 1 (pyInt (((max n m : ℕ) : ℚ) * ratio)).toNat ∧
    (dtw_distance_optimized cost ratio n m = none →
      calculate_similarity_features cost ratio n m false = 1) ∧
    (∀ d, dtw_distance_optimized cost ratio n m = some d →
      calculate_similarity_features cost ratio n m false =
        1 - Real.exp (-(((d / ((n : ℚ) + (m : ℚ))) : ℚ) : ℝ)) ∧
      0 ≤ calculate_similarity_features cost ratio n m false ∧
      calculate_similarity_features cost ratio n m false < 1) := by
  have h0 : ¬(n = 0 ∨ m = 0) := by omega
  refine ⟨rfl, ?_, ?_⟩
  · intro hd
    unfold calculate_similarity_features
    rw [if_neg h0, if_neg (by simp), hd]
  · intro d hd
    have heq : calculate_similarity_features cost ratio n m false =
        1 - Real.exp (-(((d / ((n : ℚ) + (m : ℚ))) : ℚ) : ℝ)) := by
      unfold calculate_similarity_features
      rw [if_neg h0, if_neg (by simp), hd]
    refine ⟨heq, (calc_sim_bounds cost ratio n m false hcost).1, ?_⟩
    rw [heq]
    have hpos : 0 < Real.exp (-(((d / ((n : ℚ) + (m : ℚ))) : ℚ) : ℝ)) :=
      Real.exp_pos _
    linarith

/-- Witness for C6 (amended): the finite-cost branch at a concrete input. -/
theorem C6_dtw_band_normalization_witness :
    0 ≤ calculate_similarity_features (fun _ _ => 0) (1/10) 1 1 false ∧
    calculate_similarity_features (fun _ _ => 0) (1/10) 1 1 false < 1 :=
  ((C6_dtw_band_normalization (fun _ _ => 0) (1/10) 1 1 le_rfl le_rfl
    (fun _ _ => le_rfl)).2.2 0 (by decide)).2

/-- C7: the DTW similarity of a non-empty feature sequence against itself is exactly
0.0 — the diagonal lies inside the band (whose half-width is at least 1), has zero
accumulated cost, and `1 - exp(0) = 0`.  The per-cell costs here are those of a
self-comparison: zero on the diagonal and non-negative everywhere. -/
theorem C7_self_similarity_zero (cost : ℕ → ℕ → ℚ) (ratio : ℚ) (n : ℕ)
    (hn : 1 ≤ n) (hdiag : ∀ i, cost i i = 0) (hcost : ∀ i j, 0 ≤ cost i j) :
    calculate_similarity_features cost ratio n n false = 0 := by
  have hw : 1 ≤ window_constraint ratio n n := le_max_left 1 _
  have hd : dtw_distance_optimized cost ratio n n = some 0 :=
    dtw_rows_diag cost (window_constraint ratio n n) n hcost hdiag hw n le_rfl
  unfold calculate_similarity_features
  rw [if_neg (by omega), if_neg (by simp), hd]
  norm_num

/-- Witness for C7 at a concrete self-comparison cost function. -/
theorem C7_self_similarity_zero_witness :
    calculate_similarity_features (fun _ _ => 0) (1/10) 1 1 false = 0 :=
  C7_self_similarity_zero (fun _ _ => 0) (1/10) 1 le_rfl (fun _ => rfl)
    (fun _ _ => le_rfl)

/-! ## Peak-selection lemmas and claims about the spectral analyzer -/

theorem select_peaks_spec (freqs magnitude : List ℚ) (k : ℕ) (hk : 1 ≤ k) :
    (select_peaks freqs magnitude k).length ≤ k ∧
    List.Sorted (fun p q : ℚ × ℚ => q.2 ≤ p.2) (select_peaks freqs magnitude k) ∧
    ∀ p ∈ select_peaks freqs magnitude k, 0 < p.2 := by
  letI : IsTotal (ℚ × ℚ) (fun p q : ℚ × ℚ => q.2 ≤ p.2) :=
    ⟨fun a b => le_total b.2 a.2⟩
  letI : IsTrans (ℚ × ℚ) (fun p q : ℚ × ℚ => q.2 ≤ p.2) :=
    ⟨fun a b c h1 h2 => le_trans h2 h1⟩
  have hperm := List.perm_insertionSort (fun p q : ℚ × ℚ => q.2 ≤ p.2)
    (((pySliceLast (argsort magnitude) k).filter
      (fun i => decide (0 < magnitude.getD i 0))).map
      (fun i => (freqs.getD i 0, magnitude.getD i 0)))
  refine ⟨?_, List.sorted_insertionSort _ _, ?_⟩
  · rw [select_peaks, hperm.length_eq, List.length_map]
    have h1 : ((pySliceLast (argsort magnitude) k).filter
        (fun i => decide (0 < magnitude.getD i 0))).length ≤
        (pySliceLast (argsort magnitude) k).length := List.length_filter_le _ _
    have h2 : (pySliceLast (argsort magnitude) k).length ≤ k := by
      unfold pySliceLast
      rw [if_neg (by omega)]
      rw [List.length_drop]
      omega
    omega
  · intro p hp
    rw [select_peaks] at hp
    have hp2 := hperm.mem_iff.mp hp
    obtain ⟨i, hi, hpe⟩ := List.mem_map.mp hp2
    have hfil := (List.mem_filter.mp hi).2
    rw [← hpe]
    simpa using hfil

/-- C8 counterexample: Python's `argsort(magnitude)[-num_peaks:]` slice with
`num_peaks = 0` is `[0:]` (since `-0 == 0`), the whole index list, so a non-silent
block returns one peak even though the claim demands length at most 0. -/
theorem C8_counterexample :
    ¬((find_dominant_frequencies (fun _ => [1, 1]) 44100 [1] 0).length ≤ 0) := by
  decide

/-- C8 (amended): for every audio block and every `num_peaks ≥ 1`,
`find_dominant_frequencies` returns at most `num_peaks` pairs, sorted by amplitude
descending, all with strictly positive amplitude; an empty block yields an empty
result.  (At `num_peaks = 0` the Python slice `[-0:]` degenerates to the whole list,
see the counterexample.) -/
theorem C8_dominant_frequencies (fftMag : List ℚ → List ℚ) (sample_rate : ℚ)
    (audio : List ℚ) (num_peaks : ℕ) (hk : 1 ≤ num_peaks) :
    (find_dominant_frequencies fftMag sample_rate audio num_peaks).length ≤
      num_peaks ∧
    List.Sorted (fun p q : ℚ × ℚ => q.2 ≤ p.2)
      (find_dominant_frequencies fftMag sample_rate audio num_peaks) ∧
    (∀ p ∈ find_dominant_frequencies fftMag sample_rate audio num_peaks, 0 < p.2) ∧
    find_dominant_frequencies fftMag sample_rate ([] : List ℚ) num_peaks = [] := by
  have h4 : find_dominant_frequencies fftMag sample_rate ([] : List ℚ) num_peaks = [] :=
    rfl
  by_cases ha : audio.length = 0
  · have he : find_dominant_frequencies fftMag sample_rate audio num_peaks = [] := by
      unfold find_dominant_frequencies
      rw [if_pos ha]
    rw [he]
    refine ⟨Nat.zero_le _, List.sorted_nil, ?_, h4⟩
    intro p hp
    exact absurd hp (List.not_mem_nil p)
  · have he : find_dominant_frequencies fftMag sample_rate audio num_peaks =
        select_peaks
          ((fftfreq sample_rate audio.length).take
            (((fftMag audio).take ((fftMag audio).length / 2)).length))
          ((fftMag audio).take ((fftMag audio).length / 2)) num_peaks := by
      unfold find_dominant_frequencies
      rw [if_neg ha]
    rw [he]
    obtain ⟨hl, hs, hm⟩ := select_peaks_spec _ _ num_peaks hk
    exact ⟨hl, hs, hm, h4⟩

/-- Witness for C8 (amended) at a concrete spectrum and `num_peaks = 1`. -/
theorem C8_dominant_frequencies_witness :
    (find_dominant_frequencies (fun _ => [1, 1]) 44100 [1] 1).length ≤ 1 :=
  (C8_dominant_frequencies (fun _ => [1, 1]) 44100 [1] 1 le_rfl).1

end Fuzai
